import Mathlib

/-!
Verification development for the line-break-cleaner plugin.

Strings are modelled as lists of Unicode scalar values (`List Char`); all
characters relevant here lie in the Basic Multilingual Plane, where
JavaScript's UTF-16 `charCodeAt` agrees with the scalar value.  Pixel
widths and ratios are modelled exactly over the rationals.

The repository carries several near-identical revisions of the core
classes; the definitions here are translated from `src/code.ts`, the
complete top-level plugin file (the batch orchestrator of claim C9 also
lives there).
-/

set_option maxRecDepth 4000

/-- JavaScript whitespace class, as used by `String.prototype.trim` and
the regex class `\s`: tab, LF, VT, FF, CR, space, NBSP, BOM and the
Unicode space separators including U+2028/U+2029. -/
def isJsSpace (c : Char) : Bool :=
  let n := c.toNat
  n == 0x9 || n == 0xA || n == 0xB || n == 0xC || n == 0xD ||
  n == 0x20 || n == 0xA0 || n == 0x1680 ||
  (0x2000 ≤ n && n ≤ 0x200A) ||
  n == 0x2028 || n == 0x2029 || n == 0x202F || n == 0x205F ||
  n == 0x3000 || n == 0xFEFF

/-- `line.replace(p, '')` for the pattern `\s+$` : right trim. -/
def rtrim (l : List Char) : List Char :=
  (l.reverse.dropWhile isJsSpace).reverse

/-- `line.replace(p, '')` for the pattern `^\s+` : left trim. -/
def ltrim (l : List Char) : List Char :=
  l.dropWhile isJsSpace

/-- `String.prototype.trim`. -/
def jsTrim (l : List Char) : List Char :=
  rtrim (ltrim l)

/-- `isFullWidthCharacter(charCode)` from `code.ts`: Hiragana, Katakana,
CJK Unified, CJK Extension A, fullwidth forms, CJK symbols/punctuation. -/
def isFullWidthCharacter (charCode : Nat) : Bool :=
  (0x3040 ≤ charCode && charCode ≤ 0x309F) ||
  (0x30A0 ≤ charCode && charCode ≤ 0x30FF) ||
  (0x4E00 ≤ charCode && charCode ≤ 0x9FAF) ||
  (0x3400 ≤ charCode && charCode ≤ 0x4DBF) ||
  (0xFF00 ≤ charCode && charCode ≤ 0xFFEF) ||
  (0x3000 ≤ charCode && charCode ≤ 0x303F)

/-- `isHalfWidthCharacter(charCode)` from `code.ts`: basic Latin and
half-width Katakana. -/
def isHalfWidthCharacter (charCode : Nat) : Bool :=
  (0x0020 ≤ charCode && charCode ≤ 0x007E) ||
  (0xFF61 ≤ charCode && charCode ≤ 0xFF9F)

/-- `isJapanese(char)` from `TextProcessor` in `code.ts`: note that,
unlike `isFullWidthCharacter`, it covers only Hiragana, Katakana, CJK
Unified and CJK Extension A - not fullwidth forms (U+FF00-FFEF) nor CJK
symbols and punctuation (U+3000-303F). -/
def isJapanese (c : Char) : Bool :=
  let code := c.toNat
  (0x3040 ≤ code && code ≤ 0x309F) ||
  (0x30A0 ≤ code && code ≤ 0x30FF) ||
  (0x4E00 ≤ code && code ≤ 0x9FAF) ||
  (0x3400 ≤ code && code ≤ 0x4DBF)

/-- The `ProcessingConfig` fields used by the core logic.
`fontWidthMultiplier` is optional in the source (`number | undefined`). -/
structure ProcessingConfig where
  minCharacters : Nat
  lineBreakThreshold : ℚ
  softBreakChars : List Char
  fontWidthMultiplier : Option ℚ
deriving DecidableEq

/-- `this.config.fontWidthMultiplier || 1.0` : a missing or zero (falsy)
multiplier falls back to `1.0`. -/
def baseMultiplier (cfg : ProcessingConfig) : ℚ :=
  match cfg.fontWidthMultiplier with
  | none => 1
  | some v => if v = 0 then 1 else v

/-- `estimateTextWidth(text, fontSize)` from `code.ts`: full-width
characters weigh `fontSize * m`, half-width `fontSize * m * 0.5`, any
other character `fontSize * m * 0.8`. -/
def estimateTextWidth (cfg : ProcessingConfig) (text : List Char) (fontSize : ℚ) : ℚ :=
  text.foldl (fun acc c =>
    let m := baseMultiplier cfg
    if isFullWidthCharacter c.toNat then acc + fontSize * m
    else if isHalfWidthCharacter c.toNat then acc + fontSize * (m * (1/2))
    else acc + fontSize * (m * (4/5))) 0

/-- The test `/[。．！？]$/.test(s)` : does the string end with one of
the four full-width sentence-final marks? -/
def endsWithJPPunct (l : List Char) : Bool :=
  match l.getLast? with
  | none => false
  | some c => c == '。' || c == '．' || c == '！' || c == '？'

/-- `text.split(pattern)` where `pattern` is a character class: split the
list at every character satisfying `p`, dropping the separators and
keeping empty pieces (as `String.prototype.split` does). -/
def splitOnPred (p : Char → Bool) : List Char → List (List Char)
  | [] => [[]]
  | c :: cs =>
    if p c then [] :: splitOnPred p cs
    else
      match splitOnPred p cs with
      | [] => [[c]]
      | t :: ts => (c :: t) :: ts

/-- `parts.join(sep)` for a one-character separator. -/
def joinWith (sep : Char) : List (List Char) → List Char
  | [] => []
  | [x] => x
  | x :: y :: rest => x ++ sep :: joinWith sep (y :: rest)

/-- The break-character class built in `code.ts` from
`['\n', ...softBreakChars]`. -/
def isBreakChar (cfg : ProcessingConfig) (c : Char) : Bool :=
  c == '\n' || cfg.softBreakChars.contains c

/-- The per-line decision loop of `removeLineBreaksJapanesePriority`
(`code.ts`): the last line always breaks; a line whose trimmed content
ends in one of 。．！？ breaks; otherwise the break is kept exactly when
the trimmed line's estimated width is below
`lineBreakThreshold * containerWidth`. -/
def shouldBreakAfterIdx (cfg : ProcessingConfig) (containerWidth fontSize : ℚ)
    (lines : List (List Char)) (i : Nat) : Bool :=
  let currentTrimmed := jsTrim (lines.getD i [])
  if i == lines.length - 1 then true
  else if endsWithJPPunct currentTrimmed then true
  else
    let estimatedWidth := estimateTextWidth cfg currentTrimmed fontSize
    let widthRatio := estimatedWidth / containerWidth
    decide (widthRatio < cfg.lineBreakThreshold)

/-- `combineLines(line1, line2)` from `TextProcessor` in `code.ts`:
right-trim the first line, left-trim the second; concatenate directly if
either side became empty or if the adjoining characters are both
Japanese, otherwise insert a single space. -/
def combineLines (line1 line2 : List Char) : List Char :=
  let trimmed1 := rtrim line1
  let trimmed2 := ltrim line2
  if trimmed1.isEmpty || trimmed2.isEmpty then trimmed1 ++ trimmed2
  else
    let line1End := trimmed1.getLast?
    let line2Start := trimmed2.head?
    if (match line1End with | some c => isJapanese c | none => false) &&
       (match line2Start with | some c => isJapanese c | none => false) then
      trimmed1 ++ trimmed2
    else
      trimmed1 ++ ' ' :: trimmed2

/-- The second loop of `removeLineBreaksJapanesePriority`: fold the lines
left to right, combining while the flag is `false` and flushing the
accumulator when it is `true`; any leftover accumulator after the loop is
dropped, as in the source. -/
def recombine : List (List Char × Bool) → List Char → List (List Char)
  | [], _ => []
  | (l, b) :: rest, cur =>
    let cur' := if cur.isEmpty then l else combineLines cur l
    if b then cur' :: recombine rest [] else recombine rest cur'

/-- The break flags for all line indices, as computed by the first loop. -/
def breakFlags (cfg : ProcessingConfig) (containerWidth fontSize : ℚ)
    (lines : List (List Char)) : List Bool :=
  (List.range lines.length).map (shouldBreakAfterIdx cfg containerWidth fontSize lines)

/-- `removeLineBreaksJapanesePriority(text, containerWidth, fontSize,
ignoreMinCharacters)` from `code.ts`: below `minCharacters` (unless
overridden) the text is returned unchanged; otherwise the text is split
on the hard break and every configured soft break, per-line break flags
are computed, lines are recombined accordingly and the segments joined
with the hard break. -/
def removeLineBreaksJapanesePriority (cfg : ProcessingConfig)
    (text : List Char) (containerWidth fontSize : ℚ)
    (ignoreMinCharacters : Bool) : List Char :=
  if !ignoreMinCharacters && text.length < cfg.minCharacters then text
  else
    let lines := splitOnPred (isBreakChar cfg) text
    let flags := breakFlags cfg containerWidth fontSize lines
    joinWith '\n' (recombine (lines.zip flags) [])

/-- `convertSoftBreaksToHard(text)`: replace, for each configured
soft-break character in turn, every occurrence of that character by the
hard break `'\n'`. -/
def convertSoftBreaksToHard (softBreakChars : List Char) (text : List Char) : List Char :=
  softBreakChars.foldl
    (fun result c => result.map (fun x => if x == c then '\n' else x)) text

/-- The plugin's `DEFAULT_CONFIG` (the fields the core logic reads). -/
def DEFAULT_CONFIG : ProcessingConfig :=
  { minCharacters := 20
    lineBreakThreshold := 9/10
    softBreakChars := ['\u2028']
    fontWidthMultiplier := some 1 }

/-! ### Width evaluation helpers

`Rat` arithmetic does not reduce inside the kernel, so concrete width
computations go through a scaled-integer weight (`textTenths`, in tenths
of `fontSize * multiplier`) and `norm_num`. -/

/-- The per-character weight of `estimateTextWidth`, in tenths of
`fontSize * multiplier`. -/
def charTenths (c : Char) : Nat :=
  if isFullWidthCharacter c.toNat then 10
  else if isHalfWidthCharacter c.toNat then 5
  else 8

/-- Total weight of a string, in tenths of `fontSize * multiplier`. -/
def textTenths (l : List Char) : Nat := (l.map charTenths).sum

theorem estimateTextWidth_foldl (cfg : ProcessingConfig) (fontSize : ℚ) :
    ∀ (text : List Char) (acc : ℚ),
      text.foldl (fun acc c =>
        let m := baseMultiplier cfg
        if isFullWidthCharacter c.toNat then acc + fontSize * m
        else if isHalfWidthCharacter c.toNat then acc + fontSize * (m * (1/2))
        else acc + fontSize * (m * (4/5))) acc
      = acc + fontSize * baseMultiplier cfg * (textTenths text : ℚ) / 10 := by
  intro text
  induction text with
  | nil => intro acc; simp [textTenths]
  | cons c cs ih =>
    intro acc
    simp only [List.foldl_cons, ih, textTenths, List.map_cons, List.sum_cons, charTenths]
    by_cases h1 : isFullWidthCharacter c.toNat
    · simp only [h1, if_true]; push_cast; ring
    · by_cases h2 : isHalfWidthCharacter c.toNat
      · simp only [h1, h2, if_false, if_true, Bool.false_eq_true]; push_cast; ring
      · simp only [h1, h2, if_false, Bool.false_eq_true]; push_cast; ring

theorem estimateTextWidth_eq (cfg : ProcessingConfig) (text : List Char) (fontSize : ℚ) :
    estimateTextWidth cfg text fontSize
      = fontSize * baseMultiplier cfg * (textTenths text : ℚ) / 10 := by
  have h := estimateTextWidth_foldl cfg fontSize text 0
  simpa [estimateTextWidth] using h

theorem baseMultiplier_default : baseMultiplier DEFAULT_CONFIG = 1 := by
  simp [baseMultiplier, DEFAULT_CONFIG]

/-- A non-final line (`i` is not the last index) whose trimmed content
does not end in 。．！？ takes the width-ratio branch. -/
theorem shouldBreakAfterIdx_width (cfg : ProcessingConfig)
    (containerWidth fontSize : ℚ) (lines : List (List Char)) (i : Nat)
    (hlast : (i == lines.length - 1) = false)
    (hpunct : endsWithJPPunct (jsTrim (lines.getD i [])) = false) :
    shouldBreakAfterIdx cfg containerWidth fontSize lines i
      = decide (estimateTextWidth cfg (jsTrim (lines.getD i [])) fontSize / containerWidth
          < cfg.lineBreakThreshold) := by
  unfold shouldBreakAfterIdx
  simp only [hlast, hpunct, Bool.false_eq_true, if_false]

/-- A non-final line whose trimmed content ends in one of 。．！？ keeps
its break. -/
theorem shouldBreakAfterIdx_punct (cfg : ProcessingConfig)
    (containerWidth fontSize : ℚ) (lines : List (List Char)) (i : Nat)
    (hpunct : endsWithJPPunct (jsTrim (lines.getD i [])) = true) :
    shouldBreakAfterIdx cfg containerWidth fontSize lines i = true := by
  unfold shouldBreakAfterIdx
  simp only [hpunct, if_true]
  split <;> rfl

theorem splitOnPred_ne_nil (p : Char → Bool) (l : List Char) :
    splitOnPred p l ≠ [] := by
  induction l with
  | nil => simp [splitOnPred]
  | cons c cs ih =>
    simp only [splitOnPred]
    split
    · simp
    · split
      · simp
      · simp

theorem splitOnPred_congr (p q : Char → Bool) :
    ∀ l : List Char, (∀ c ∈ l, p c = q c) → splitOnPred p l = splitOnPred q l := by
  intro l
  induction l with
  | nil => intro _; rfl
  | cons c cs ih =>
    intro h
    have hc : p c = q c := h c (by simp)
    have hcs : splitOnPred p cs = splitOnPred q cs :=
      ih (fun d hd => h d (by simp [hd]))
    simp only [splitOnPred, hc, hcs]

/-- Splitting on exactly the separator character and joining with it is
the identity. -/
theorem joinWith_splitOnPred (sep : Char) (p : Char → Bool) :
    ∀ l : List Char, (∀ c ∈ l, p c = (c == sep)) →
      joinWith sep (splitOnPred p l) = l := by
  intro l
  induction l with
  | nil => intro _; rfl
  | cons c cs ih =>
    intro h
    have hcs : joinWith sep (splitOnPred p cs) = cs :=
      ih (fun d hd => h d (by simp [hd]))
    have hc : p c = (c == sep) := h c (by simp)
    by_cases hsep : c = sep
    · have hpc : p c = true := by rw [hc, hsep]; exact beq_self_eq_true sep
      obtain ⟨t, ts, hts⟩ : ∃ t ts, splitOnPred p cs = t :: ts := by
        cases hx : splitOnPred p cs with
        | nil => exact absurd hx (splitOnPred_ne_nil p cs)
        | cons t ts => exact ⟨t, ts, rfl⟩
      rw [hts] at hcs
      simp only [splitOnPred, hpc, if_true, hts, joinWith, List.nil_append]
      rw [hcs, hsep]
    · have hpc : p c = false := by simp [hc]; exact hsep
      simp only [splitOnPred, hpc, Bool.false_eq_true, if_false]
      cases hx : splitOnPred p cs with
      | nil => exact absurd hx (splitOnPred_ne_nil p cs)
      | cons t ts =>
        rw [hx] at hcs
        cases ts with
        | nil => simpa [joinWith] using hcs
        | cons t2 ts2 => simpa [joinWith] using hcs

theorem recombine_all_true :
    ∀ pairs : List (List Char × Bool), (∀ q ∈ pairs, q.2 = true) →
      recombine pairs [] = pairs.map Prod.fst := by
  intro pairs
  induction pairs with
  | nil => intro _; rfl
  | cons q rest ih =>
    intro h
    obtain ⟨l, b⟩ := q
    have hb : b = true := h (l, b) (by simp)
    subst hb
    simp only [recombine, List.isEmpty_nil, if_true, List.map_cons]
    exact congrArg (l :: ·) (ih (fun q hq => h q (by simp [hq])))

theorem breakFlags_length (cfg : ProcessingConfig) (cw fs : ℚ)
    (lines : List (List Char)) : (breakFlags cfg cw fs lines).length = lines.length := by
  simp [breakFlags]

theorem breakFlags_all_true (cfg : ProcessingConfig) (cw fs : ℚ)
    (lines : List (List Char))
    (h : ∀ i, i < lines.length → shouldBreakAfterIdx cfg cw fs lines i = true) :
    ∀ b ∈ breakFlags cfg cw fs lines, b = true := by
  intro b hb
  simp only [breakFlags, List.mem_map, List.mem_range] at hb
  obtain ⟨i, hi, rfl⟩ := hb
  exact h i hi

/-- Unfolding of the rejoin pass once the guard, the split and the flags
are known. -/
theorem rejoin_eval (cfg : ProcessingConfig) (text : List Char)
    (containerWidth fontSize : ℚ) (ign : Bool)
    (lines : List (List Char)) (flags : List Bool)
    (hmin : (!ign && decide (text.length < cfg.minCharacters)) = false)
    (hsplit : splitOnPred (isBreakChar cfg) text = lines)
    (hflags : breakFlags cfg containerWidth fontSize lines = flags) :
    removeLineBreaksJapanesePriority cfg text containerWidth fontSize ign
      = joinWith '\n' (recombine (lines.zip flags) []) := by
  unfold removeLineBreaksJapanesePriority
  simp only [hmin, Bool.false_eq_true, if_false, hsplit, hflags]

/-! ### Flag evaluation at concrete width ratios -/

/-- 23 Hiragana characters. -/
def hira (n : Nat) : List Char := List.replicate n 'あ'

theorem flag_of_ratio_ge (cfg : ProcessingConfig) (cw fs : ℚ)
    (lines : List (List Char)) (i : Nat)
    (hlast : (i == lines.length - 1) = false)
    (hpunct : endsWithJPPunct (jsTrim (lines.getD i [])) = false)
    (h : cfg.lineBreakThreshold ≤ estimateTextWidth cfg (jsTrim (lines.getD i [])) fs / cw) :
    shouldBreakAfterIdx cfg cw fs lines i = false := by
  rw [shouldBreakAfterIdx_width cfg cw fs lines i hlast hpunct]
  simpa [decide_eq_false_iff_not] using not_lt.mpr h

theorem flag_of_ratio_lt (cfg : ProcessingConfig) (cw fs : ℚ)
    (lines : List (List Char)) (i : Nat)
    (hlast : (i == lines.length - 1) = false)
    (hpunct : endsWithJPPunct (jsTrim (lines.getD i [])) = false)
    (h : estimateTextWidth cfg (jsTrim (lines.getD i [])) fs / cw < cfg.lineBreakThreshold) :
    shouldBreakAfterIdx cfg cw fs lines i = true := by
  rw [shouldBreakAfterIdx_width cfg cw fs lines i hlast hpunct]
  exact decide_eq_true h

theorem flag_hira23_false (lines : List (List Char)) (i : Nat)
    (hget : lines.getD i [] = hira 23)
    (hlast : (i == lines.length - 1) = false) :
    shouldBreakAfterIdx DEFAULT_CONFIG 400 16 lines i = false := by
  apply flag_of_ratio_ge DEFAULT_CONFIG 400 16 lines i hlast
  · rw [hget]
    decide
  · rw [hget]
    have ht : jsTrim (hira 23) = hira 23 := by decide
    rw [ht, estimateTextWidth_eq, baseMultiplier_default]
    have htt : textTenths (hira 23) = 230 := by decide
    rw [htt]
    show (9 : ℚ)/10 ≤ 16 * 1 * (230 : ℚ) / 10 / 400
    norm_num

theorem flag_hira20_true (lines : List (List Char)) (i : Nat)
    (hget : lines.getD i [] = hira 20)
    (hlast : (i == lines.length - 1) = false) :
    shouldBreakAfterIdx DEFAULT_CONFIG 400 16 lines i = true := by
  apply flag_of_ratio_lt DEFAULT_CONFIG 400 16 lines i hlast
  · rw [hget]
    decide
  · rw [hget]
    have ht : jsTrim (hira 20) = hira 20 := by decide
    rw [ht, estimateTextWidth_eq, baseMultiplier_default]
    have htt : textTenths (hira 20) = 200 := by decide
    rw [htt]
    show 16 * 1 * (200 : ℚ) / 10 / 400 < 9/10
    norm_num

theorem rejoin_hira23_join :
    removeLineBreaksJapanesePriority DEFAULT_CONFIG
      (hira 23 ++ '\n' :: ['ね', 'こ']) 400 16 false = hira 23 ++ ['ね', 'こ'] := by
  have hsplit : splitOnPred (isBreakChar DEFAULT_CONFIG) (hira 23 ++ '\n' :: ['ね', 'こ'])
      = [hira 23, ['ね', 'こ']] := by decide
  have h0 : shouldBreakAfterIdx DEFAULT_CONFIG 400 16 [hira 23, ['ね', 'こ']] 0 = false :=
    flag_hira23_false _ 0 rfl (by decide)
  have h1 : shouldBreakAfterIdx DEFAULT_CONFIG 400 16 [hira 23, ['ね', 'こ']] 1 = true := by
    decide
  have hflags : breakFlags DEFAULT_CONFIG 400 16 [hira 23, ['ね', 'こ']] = [false, true] := by
    simp [breakFlags, List.range_succ, h0, h1]
  rw [rejoin_eval DEFAULT_CONFIG _ 400 16 false _ _ (by decide) hsplit hflags]
  decide

theorem rejoin_hira20_keep :
    removeLineBreaksJapanesePriority DEFAULT_CONFIG
      (hira 20 ++ '\n' :: ['ね', 'こ']) 400 16 false = hira 20 ++ '\n' :: ['ね', 'こ'] := by
  have hsplit : splitOnPred (isBreakChar DEFAULT_CONFIG) (hira 20 ++ '\n' :: ['ね', 'こ'])
      = [hira 20, ['ね', 'こ']] := by decide
  have h0 : shouldBreakAfterIdx DEFAULT_CONFIG 400 16 [hira 20, ['ね', 'こ']] 0 = true :=
    flag_hira20_true _ 0 rfl (by decide)
  have h1 : shouldBreakAfterIdx DEFAULT_CONFIG 400 16 [hira 20, ['ね', 'こ']] 1 = true := by
    decide
  have hflags : breakFlags DEFAULT_CONFIG 400 16 [hira 20, ['ね', 'こ']] = [true, true] := by
    simp [breakFlags, List.range_succ, h0, h1]
  rw [rejoin_eval DEFAULT_CONFIG _ 400 16 false _ _ (by decide) hsplit hflags]
  decide

/-- A line of 49 ASCII letters followed by an ASCII full stop
(estimated width 400 at fontSize 16). -/
def dotLine : List Char := List.replicate 49 'a' ++ ['.']

theorem flag_dotLine_false (lines : List (List Char)) (i : Nat)
    (hget : lines.getD i [] = dotLine)
    (hlast : (i == lines.length - 1) = false) :
    shouldBreakAfterIdx DEFAULT_CONFIG 400 16 lines i = false := by
  apply flag_of_ratio_ge DEFAULT_CONFIG 400 16 lines i hlast
  · rw [hget]
    decide
  · rw [hget]
    have ht : jsTrim dotLine = dotLine := by decide
    rw [ht, estimateTextWidth_eq, baseMultiplier_default]
    have htt : textTenths dotLine = 250 := by decide
    rw [htt]
    show (9 : ℚ)/10 ≤ 16 * 1 * (250 : ℚ) / 10 / 400
    norm_num

/-! ### Claim C1 -/

/-- C1: in the rejoin pass (`removeLineBreaksJapanesePriority`), every
non-final line whose trimmed content does not end in a sentence-final
mark gets `breakAfter = (estimateWidth(trim(line)) / containerWidth <
lineBreakThreshold)`; in particular, with containerWidth 400, threshold
0.9 and fontSize 16, a trimmed line of 23 Hiragana characters (width
368, ratio 0.92) is joined with the next line, and a trimmed line of 20
Hiragana characters (width 320, ratio 0.8) keeps its break. -/
theorem C1_breakAfter_width_rule (cfg : ProcessingConfig) (cw fs : ℚ)
    (lines : List (List Char)) (i : Nat)
    (h1 : i < lines.length - 1)
    (h2 : endsWithJPPunct (jsTrim (lines.getD i [])) = false) :
    shouldBreakAfterIdx cfg cw fs lines i
      = decide (estimateTextWidth cfg (jsTrim (lines.getD i [])) fs / cw
          < cfg.lineBreakThreshold)
    ∧ removeLineBreaksJapanesePriority DEFAULT_CONFIG
        (hira 23 ++ '\n' :: ['ね', 'こ']) 400 16 false = hira 23 ++ ['ね', 'こ']
    ∧ removeLineBreaksJapanesePriority DEFAULT_CONFIG
        (hira 20 ++ '\n' :: ['ね', 'こ']) 400 16 false = hira 20 ++ '\n' :: ['ね', 'こ'] := by
  refine ⟨?_, rejoin_hira23_join, rejoin_hira20_keep⟩
  exact shouldBreakAfterIdx_width cfg cw fs lines i
    (by simp [Nat.ne_of_lt h1]) h2

/-- Witness for C1 at the 23-Hiragana line. -/
theorem C1_breakAfter_width_rule_witness :
    shouldBreakAfterIdx DEFAULT_CONFIG 400 16 [hira 23, ['ね', 'こ']] 0
      = decide (estimateTextWidth DEFAULT_CONFIG
          (jsTrim (([hira 23, ['ね', 'こ']] : List (List Char)).getD 0 [])) 16 / 400
          < DEFAULT_CONFIG.lineBreakThreshold) :=
  (C1_breakAfter_width_rule DEFAULT_CONFIG 400 16 [hira 23, ['ね', 'こ']] 0
    (by decide) (by decide)).1

/-! ### Claim C3 -/

/-- C3 counterexample: a non-final line that ends with the ASCII full
stop `'.'` and fills the container is not treated as a sentence end: its
flag is `false` and the rejoin pass joins it (with a space) to the next
line, contradicting the claim that ASCII equivalents of 。．！？ preserve
the break. -/
theorem C3_counterexample :
    (jsTrim dotLine).getLast? = some '.'
    ∧ shouldBreakAfterIdx DEFAULT_CONFIG 400 16 [dotLine, ['b', 'b']] 0 = false
    ∧ removeLineBreaksJapanesePriority DEFAULT_CONFIG
        (dotLine ++ '\n' :: ['b', 'b']) 400 16 false = dotLine ++ ' ' :: ['b', 'b'] := by
  have h0 : shouldBreakAfterIdx DEFAULT_CONFIG 400 16 [dotLine, ['b', 'b']] 0 = false :=
    flag_dotLine_false _ 0 rfl (by decide)
  refine ⟨by decide, h0, ?_⟩
  have hsplit : splitOnPred (isBreakChar DEFAULT_CONFIG) (dotLine ++ '\n' :: ['b', 'b'])
      = [dotLine, ['b', 'b']] := by decide
  have h1 : shouldBreakAfterIdx DEFAULT_CONFIG 400 16 [dotLine, ['b', 'b']] 1 = true := by
    decide
  have hflags : breakFlags DEFAULT_CONFIG 400 16 [dotLine, ['b', 'b']] = [false, true] := by
    simp [breakFlags, List.range_succ, h0, h1]
  rw [rejoin_eval DEFAULT_CONFIG _ 400 16 false _ _ (by decide) hsplit hflags]
  decide

/-- C3 (amended): only the four full-width marks 。．！？ are
sentence-final for the rejoin pass: any line whose trimmed content ends
in one of them keeps its break regardless of the width ratio, while the
ASCII characters '.', '!', '?' never match the mark test (such lines
fall through to the width-ratio rule). -/
theorem C3_punct_preserved_amended (cfg : ProcessingConfig) (cw fs : ℚ)
    (lines : List (List Char)) (i : Nat)
    (h : endsWithJPPunct (jsTrim (lines.getD i [])) = true) :
    shouldBreakAfterIdx cfg cw fs lines i = true
    ∧ (∀ (l : List Char) (c : Char), l.getLast? = some c →
        (c = '.' ∨ c = '!' ∨ c = '?') → endsWithJPPunct l = false) := by
  refine ⟨shouldBreakAfterIdx_punct cfg cw fs lines i h, ?_⟩
  intro l c hl hc
  unfold endsWithJPPunct
  rw [hl]
  rcases hc with rfl | rfl | rfl <;> rfl

/-- Witness for C3 (amended) at a line ending in 。 and at the ASCII
full stop. -/
theorem C3_punct_preserved_amended_witness :
    shouldBreakAfterIdx DEFAULT_CONFIG 400 16 [['あ', '。'], ['い']] 0 = true
    ∧ endsWithJPPunct ['a', '.'] = false :=
  ⟨(C3_punct_preserved_amended DEFAULT_CONFIG 400 16 [['あ', '。'], ['い']] 0 (by decide)).1,
   (C3_punct_preserved_amended DEFAULT_CONFIG 400 16 [['あ', '。'], ['い']] 0 (by decide)).2
     ['a', '.'] '.' (by decide) (Or.inl rfl)⟩

/-! ### Claim C2 -/

theorem getD_mem_of_lt {α : Type} (l : List α) (d : α) :
    ∀ i : Nat, i < l.length → l.getD i d ∈ l := by
  induction l with
  | nil => intro i hi; simp at hi
  | cons a as ih =>
    intro i hi
    cases i with
    | zero => simp [List.getD]
    | succ n =>
      simp only [List.getD_cons_succ]
      exact List.mem_cons_of_mem a (ih n (by simpa using hi))

/-- Ten Hiragana characters followed by 。. -/
def jpsent1 : List Char := List.replicate 10 'あ' ++ ['。']

/-- Ten more Hiragana characters followed by 。. -/
def jpsent2 : List Char := List.replicate 10 'い' ++ ['。']

/-- C2 counterexample: a 23-character text consisting of a single
hard-break-delimited line that ends in 。 but contains the configured
soft break U+2028.  The `code.ts` rejoin splits on soft breaks as well
and joins the pieces with the hard break, so the text comes back
changed although every hard-break-delimited line ends in 。. -/
theorem C2_counterexample :
    (∀ l ∈ splitOnPred (fun c => c == '\n') (jpsent1 ++ '\u2028' :: jpsent2),
        endsWithJPPunct (jsTrim l) = true)
    ∧ DEFAULT_CONFIG.minCharacters ≤ (jpsent1 ++ '\u2028' :: jpsent2).length
    ∧ removeLineBreaksJapanesePriority DEFAULT_CONFIG
        (jpsent1 ++ '\u2028' :: jpsent2) 400 16 false ≠ jpsent1 ++ '\u2028' :: jpsent2 := by
  refine ⟨by decide, by decide, by decide⟩

/-- C2 (amended): for every text at or above `minCharacters` (or with
`ignoreMinCharacters`) that contains no configured soft-break character
and in which every hard-break-delimited line's trimmed content ends in
。．！？, the rejoin pass returns the input unchanged. -/
theorem C2_all_punct_unchanged_amended (cfg : ProcessingConfig) (cw fs : ℚ)
    (ign : Bool) (text : List Char)
    (hmin : ign = true ∨ cfg.minCharacters ≤ text.length)
    (hsoft : ∀ c ∈ text, cfg.softBreakChars.contains c = false)
    (hpunct : ∀ l ∈ splitOnPred (fun c => c == '\n') text,
        endsWithJPPunct (jsTrim l) = true) :
    removeLineBreaksJapanesePriority cfg text cw fs ign = text := by
  rcases Bool.eq_false_or_eq_true (!ign && decide (text.length < cfg.minCharacters)) with hg | hg
  · unfold removeLineBreaksJapanesePriority
    rw [hg]
    rfl
  · rw [rejoin_eval cfg text cw fs ign _ _ hg rfl rfl]
    have hLnl : splitOnPred (isBreakChar cfg) text
        = splitOnPred (fun c => c == '\n') text :=
      splitOnPred_congr _ _ text
        (fun c hc => by simp only [isBreakChar, hsoft c hc, Bool.or_false])
    have hflagtrue : ∀ i, i < (splitOnPred (isBreakChar cfg) text).length →
        shouldBreakAfterIdx cfg cw fs (splitOnPred (isBreakChar cfg) text) i = true := by
      intro i hi
      apply shouldBreakAfterIdx_punct
      apply hpunct
      rw [← hLnl]
      exact getD_mem_of_lt _ _ i hi
    have hall : ∀ q ∈ (splitOnPred (isBreakChar cfg) text).zip
        (breakFlags cfg cw fs (splitOnPred (isBreakChar cfg) text)), q.2 = true := by
      intro q hq
      exact breakFlags_all_true cfg cw fs _ hflagtrue q.2 (List.of_mem_zip hq).2
    rw [recombine_all_true _ hall,
      List.map_fst_zip _ _ (by rw [breakFlags_length])]
    exact joinWith_splitOnPred '\n' (isBreakChar cfg) text
      (fun c hc => by simp only [isBreakChar, hsoft c hc, Bool.or_false])

/-- Witness for C2 (amended): a two-line Japanese text, each line ending
in 。, is returned unchanged. -/
theorem C2_all_punct_unchanged_amended_witness :
    removeLineBreaksJapanesePriority DEFAULT_CONFIG
      (jpsent1 ++ '\n' :: jpsent2) 400 16 false = jpsent1 ++ '\n' :: jpsent2 :=
  C2_all_punct_unchanged_amended DEFAULT_CONFIG 400 16 false
    (jpsent1 ++ '\n' :: jpsent2)
    (Or.inr (by decide)) (by decide) (by decide)

/-! ### Claim C10 -/

/-- C10: with a positive `lineBreakThreshold`, every non-final line whose
trimmed content is empty gets `breakAfter = true` (its width ratio is 0),
so the break after a blank line is always preserved; concretely, a wide
line followed by a blank line is absorbed into that line, but the line
after the blank one starts a fresh segment. -/
theorem C10_blank_line_break_preserved (cfg : ProcessingConfig) (cw fs : ℚ)
    (lines : List (List Char)) (i : Nat)
    (hpos : 0 < cfg.lineBreakThreshold)
    (h1 : i < lines.length - 1)
    (h2 : jsTrim (lines.getD i []) = []) :
    shouldBreakAfterIdx cfg cw fs lines i = true
    ∧ removeLineBreaksJapanesePriority DEFAULT_CONFIG
        (hira 23 ++ '\n' :: '\n' :: ['ぶ']) 400 16 false = hira 23 ++ '\n' :: ['ぶ'] := by
  constructor
  · rw [shouldBreakAfterIdx_width cfg cw fs lines i
      (by simp [Nat.ne_of_lt h1]) (by rw [h2]; rfl)]
    rw [h2]
    have h0 : estimateTextWidth cfg [] fs = 0 := rfl
    rw [h0, zero_div]
    exact decide_eq_true hpos
  · have hsplit : splitOnPred (isBreakChar DEFAULT_CONFIG)
        (hira 23 ++ '\n' :: '\n' :: ['ぶ']) = [hira 23, [], ['ぶ']] := by decide
    have h0 : shouldBreakAfterIdx DEFAULT_CONFIG 400 16 [hira 23, [], ['ぶ']] 0 = false :=
      flag_hira23_false _ 0 rfl (by decide)
    have hb : shouldBreakAfterIdx DEFAULT_CONFIG 400 16 [hira 23, [], ['ぶ']] 1 = true := by
      rw [shouldBreakAfterIdx_width DEFAULT_CONFIG 400 16 _ 1 (by decide) (by decide)]
      have h0' : estimateTextWidth DEFAULT_CONFIG
          (jsTrim (([hira 23, [], ['ぶ']] : List (List Char)).getD 1 [])) 16 = 0 := rfl
      rw [h0', zero_div]
      exact decide_eq_true (by norm_num [DEFAULT_CONFIG])
    have hc : shouldBreakAfterIdx DEFAULT_CONFIG 400 16 [hira 23, [], ['ぶ']] 2 = true := by
      decide
    have hflags : breakFlags DEFAULT_CONFIG 400 16 [hira 23, [], ['ぶ']]
        = [false, true, true] := by
      simp [breakFlags, List.range_succ, h0, hb, hc]
    rw [rejoin_eval DEFAULT_CONFIG _ 400 16 false _ _ (by decide) hsplit hflags]
    decide

/-- Witness for C10 at the blank middle line of a three-line text. -/
theorem C10_blank_line_break_preserved_witness :
    shouldBreakAfterIdx DEFAULT_CONFIG 400 16 [hira 23, [], ['ぶ']] 1 = true :=
  (C10_blank_line_break_preserved DEFAULT_CONFIG 400 16 [hira 23, [], ['ぶ']] 1
    (by norm_num [DEFAULT_CONFIG]) (by decide) (by decide)).1

/-! ### Claim C4 -/

/-- C4 counterexample: 'あ' and '。' are both full-width per the width
estimator's ranges, yet `combineLines` separates them with a space - its
CJK test `isJapanese` excludes CJK punctuation (U+3000-303F) and
fullwidth forms (U+FF00-FFEF) - so "both CJK per the full-width ranges
are concatenated with no separator" fails. -/
theorem C4_counterexample :
    isFullWidthCharacter 'あ'.toNat = true
    ∧ isFullWidthCharacter '。'.toNat = true
    ∧ combineLines ['あ'] ['。', 'い'] = ['あ', ' ', '。', 'い']
    ∧ combineLines ['あ'] ['。', 'い'] ≠ ['あ', '。', 'い'] := by
  refine ⟨by decide, by decide, by decide, by decide⟩

/-- C4 (amended): after right-trimming `a` and left-trimming `b`, if
either side is empty the parts are concatenated as-is; if the adjoining
characters are both Japanese per `isJapanese` (Hiragana, Katakana, CJK
Unified, CJK Extension A only - not the fullwidth forms or CJK
punctuation of the full-width classification) they are concatenated
with no separator; in every other combination exactly one space is
inserted. -/
theorem C4_combineLines_amended (a b : List Char) :
    (rtrim a = [] ∨ ltrim b = [] → combineLines a b = rtrim a ++ ltrim b)
    ∧ (∀ c d, (rtrim a).getLast? = some c → (ltrim b).head? = some d →
        isJapanese c = true → isJapanese d = true →
        combineLines a b = rtrim a ++ ltrim b)
    ∧ (∀ c d, (rtrim a).getLast? = some c → (ltrim b).head? = some d →
        (isJapanese c && isJapanese d) = false →
        combineLines a b = rtrim a ++ ' ' :: ltrim b) := by
  refine ⟨?_, ?_, ?_⟩
  · intro h
    rcases h with h | h <;> simp [combineLines, h]
  · intro c d hc hd h1 h2
    have ha : (rtrim a).isEmpty = false := by
      cases hx : rtrim a with
      | nil => rw [hx] at hc; simp at hc
      | cons x xs => rfl
    have hb : (ltrim b).isEmpty = false := by
      cases hx : ltrim b with
      | nil => rw [hx] at hd; simp at hd
      | cons x xs => rfl
    simp [combineLines, ha, hb, hc, hd, h1, h2]
  · intro c d hc hd h12
    have ha : (rtrim a).isEmpty = false := by
      cases hx : rtrim a with
      | nil => rw [hx] at hc; simp at hc
      | cons x xs => rfl
    have hb : (ltrim b).isEmpty = false := by
      cases hx : ltrim b with
      | nil => rw [hx] at hd; simp at hd
      | cons x xs => rfl
    simp [combineLines, ha, hb, hc, hd, h12]

/-- Witness for C4 (amended): two Hiragana neighbours concatenate with no
space, two Latin neighbours get exactly one space. -/
theorem C4_combineLines_amended_witness :
    combineLines ['あ'] ['い'] = rtrim ['あ'] ++ ltrim ['い']
    ∧ combineLines ['x'] ['y'] = rtrim ['x'] ++ ' ' :: ltrim ['y'] :=
  ⟨(C4_combineLines_amended ['あ'] ['い']).2.1 'あ' 'い'
      (by decide) (by decide) (by decide) (by decide),
   (C4_combineLines_amended ['x'] ['y']).2.2 'x' 'y'
      (by decide) (by decide) (by decide)⟩

/-! ### Claim C5 -/

/-- The effect of the conversion loop on a single character. -/
def convertChar (softBreakChars : List Char) (x : Char) : Char :=
  softBreakChars.foldl (fun y c => if y == c then '\n' else y) x

theorem convertSoftBreaksToHard_eq_map :
    ∀ (softBreakChars : List Char) (text : List Char),
      convertSoftBreaksToHard softBreakChars text
        = text.map (convertChar softBreakChars) := by
  intro S
  induction S with
  | nil =>
    intro t
    show t = List.map (convertChar []) t
    exact (List.map_id t).symm
  | cons c S ih =>
    intro t
    show convertSoftBreaksToHard S (t.map fun x => if x == c then '\n' else x) = _
    rw [ih, List.map_map]
    rfl

theorem convertChar_newline (softBreakChars : List Char) :
    convertChar softBreakChars '\n' = '\n' := by
  induction softBreakChars with
  | nil => rfl
  | cons c S ih =>
    show convertChar S (if '\n' == c then '\n' else '\n') = '\n'
    rw [ite_self]
    exact ih

theorem convertChar_cases (softBreakChars : List Char) :
    ∀ x, convertChar softBreakChars x = x ∨ convertChar softBreakChars x = '\n' := by
  induction softBreakChars with
  | nil => intro x; exact Or.inl rfl
  | cons c S ih =>
    intro x
    show (convertChar S (if x == c then '\n' else x) = x)
      ∨ (convertChar S (if x == c then '\n' else x) = '\n')
    by_cases h : x == c
    · simp only [h, if_true]
      exact Or.inr (convertChar_newline S)
    · simp only [h, if_false, Bool.false_eq_true]
      exact ih x

theorem convertChar_idem (softBreakChars : List Char) (x : Char) :
    convertChar softBreakChars (convertChar softBreakChars x)
      = convertChar softBreakChars x := by
  rcases convertChar_cases softBreakChars x with h | h
  · rw [h, h]
  · rw [h, convertChar_newline]

/-- C5: soft-break conversion is idempotent - converting a text twice
with the same configured soft-break set gives the same result as
converting it once. -/
theorem C5_convert_idempotent (softBreakChars : List Char) (text : List Char) :
    convertSoftBreaksToHard softBreakChars (convertSoftBreaksToHard softBreakChars text)
      = convertSoftBreaksToHard softBreakChars text := by
  rw [convertSoftBreaksToHard_eq_map, convertSoftBreaksToHard_eq_map, List.map_map]
  apply List.map_congr_left
  intro x _
  exact convertChar_idem softBreakChars x

/-! ### Claim C6 -/

/-- Figma's `textAutoResize` modes. -/
inductive TextAutoResize where
  | NONE
  | HEIGHT
  | WIDTH_AND_HEIGHT
  | TRUNCATE
deriving DecidableEq, Inhabited

/-- The three detection kinds. -/
inductive DetectionType where
  | autoWidth
  | edgeBreaking
  | softBreak
deriving DecidableEq, Inhabited

/-- A detected issue (the `description`/`lineNumbers` fields carry no
logic and are omitted). -/
structure DetectedIssue where
  type : DetectionType
  confidence : ℚ
deriving DecidableEq

/-- The `TextNode` fields read by the detector and the change
synthesizer.  `fontSize` is `none` when the node has mixed font sizes
(`figma.mixed`). -/
structure TextNodeModel where
  textAutoResize : TextAutoResize
  characters : List Char
  width : ℚ
  fontSize : Option ℚ

/-- `detectAutoWidthIssues(node)` from `code.ts`: an `auto-width` issue
with confidence 0.9 is emitted when the resize mode is NONE, HEIGHT or
WIDTH_AND_HEIGHT and the content contains a hard break. -/
def detectAutoWidthIssues (node : TextNodeModel) : List DetectedIssue :=
  if (node.textAutoResize == TextAutoResize.NONE
      || node.textAutoResize == TextAutoResize.HEIGHT
      || node.textAutoResize == TextAutoResize.WIDTH_AND_HEIGHT)
     && node.characters.contains '\n' then
    [{ type := DetectionType.autoWidth, confidence := 9/10 }]
  else []

/-- C6 counterexample: a Fixed (NONE) block whose content holds a hard
break is flagged with an AutoWidth issue of confidence 0.9 by `code.ts`,
contradicting "for blocks in Fixed or AutoHeight mode no AutoWidth issue
is emitted". -/
theorem C6_counterexample :
    ({ textAutoResize := TextAutoResize.NONE, characters := ['a', '\n', 'b'],
       width := 400, fontSize := some 16 } : TextNodeModel).textAutoResize
      = TextAutoResize.NONE
    ∧ detectAutoWidthIssues
        { textAutoResize := TextAutoResize.NONE, characters := ['a', '\n', 'b'],
          width := 400, fontSize := some 16 }
      = [{ type := DetectionType.autoWidth, confidence := 9/10 }] :=
  ⟨rfl, rfl⟩

/-- C6 (amended): `code.ts` emits the AutoWidth issue (confidence 0.9)
iff the resize mode is NONE, HEIGHT or WIDTH_AND_HEIGHT - that is, any
mode except TRUNCATE - and the content contains a hard break; Fixed and
AutoHeight blocks with a hard break are therefore flagged as well. -/
theorem C6_autoWidth_detection_amended (node : TextNodeModel) :
    detectAutoWidthIssues node
        = [{ type := DetectionType.autoWidth, confidence := 9/10 }]
      ↔ ((node.textAutoResize = TextAutoResize.NONE
          ∨ node.textAutoResize = TextAutoResize.HEIGHT
          ∨ node.textAutoResize = TextAutoResize.WIDTH_AND_HEIGHT)
         ∧ node.characters.contains '\n' = true) := by
  unfold detectAutoWidthIssues
  split
  case isTrue h =>
    simp only [Bool.and_eq_true, Bool.or_eq_true, beq_iff_eq] at h
    refine iff_of_true rfl ⟨?_, h.2⟩
    tauto
  case isFalse h =>
    simp only [Bool.and_eq_true, Bool.or_eq_true, beq_iff_eq] at h
    constructor
    · intro hx
      exact absurd hx (by simp)
    · intro hx
      refine absurd ?_ h
      exact ⟨by tauto, hx.2⟩

/-- Witness for C6 (amended) at an AutoWidthAndHeight block containing a
hard break. -/
theorem C6_autoWidth_detection_amended_witness :
    detectAutoWidthIssues
      { textAutoResize := TextAutoResize.WIDTH_AND_HEIGHT, characters := ['a', '\n', 'b'],
        width := 400, fontSize := some 16 }
      = [{ type := DetectionType.autoWidth, confidence := 9/10 }] :=
  (C6_autoWidth_detection_amended
    { textAutoResize := TextAutoResize.WIDTH_AND_HEIGHT, characters := ['a', '\n', 'b'],
      width := 400, fontSize := some 16 }).mpr
    ⟨Or.inr (Or.inr rfl), by decide⟩

/-! ### Claim C7 -/

/-- Worker for `tokenize`: scans the paragraph, keeping the current run
(reversed) and whether it is a whitespace run, and emits completed runs
(a trailing whitespace run is followed by an empty word, as JavaScript's
`split` with a captured separator does). -/
def tokenizeAux : List Char → List Char → Bool → List (List Char) → List (List Char)
  | [], cur, curIsSpace, out =>
    if curIsSpace then (([] : List Char) :: cur.reverse :: out).reverse
    else (cur.reverse :: out).reverse
  | c :: cs, cur, curIsSpace, out =>
    if isJsSpace c == curIsSpace then tokenizeAux cs (c :: cur) curIsSpace out
    else tokenizeAux cs [c] (isJsSpace c) (cur.reverse :: out)

/-- `paragraph.split(p)` for the pattern `(\s+)` with the separator
captured: alternating word and whitespace-run tokens, with an empty word
at an end that begins or ends with whitespace. -/
def tokenize (l : List Char) : List (List Char) := tokenizeAux l [] false []

/-- One step of the greedy accumulation loop of `simulateWordWrap`:
append the token when the test line fits or the current line is still
empty, otherwise flush the current line and start a new one with the
token. -/
def wrapStep (cfg : ProcessingConfig) (containerWidth fontSize : ℚ)
    (st : List (List Char) × List Char) (word : List Char) :
    List (List Char) × List Char :=
  let testLine := st.2 ++ word
  if estimateTextWidth cfg testLine fontSize ≤ containerWidth ∨ st.2 = [] then
    (st.1, testLine)
  else
    (st.1 ++ [st.2], word)

/-- `simulateWordWrap(text, containerWidth, fontSize)` from `code.ts`:
split the text into paragraphs on the break pattern; a whitespace-only
paragraph contributes one empty visual line; any other paragraph is
tokenized into word/whitespace tokens and wrapped greedily, the last
line being flushed when non-empty. -/
def simulateWordWrap (cfg : ProcessingConfig) (text : List Char)
    (containerWidth fontSize : ℚ) : List (List Char) :=
  (splitOnPred (isBreakChar cfg) text).foldl
    (fun lines paragraph =>
      if jsTrim paragraph = [] then lines ++ [[]]
      else
        let st := (tokenize paragraph).foldl (wrapStep cfg containerWidth fontSize) (lines, [])
        if st.2 ≠ [] then st.1 ++ [st.2] else st.1)
    []

/-- The contribution of a single paragraph to the simulation. -/
def wrapParagraph (cfg : ProcessingConfig) (containerWidth fontSize : ℚ)
    (paragraph : List Char) : List (List Char) :=
  if jsTrim paragraph = [] then [[]]
  else
    let st := (tokenize paragraph).foldl (wrapStep cfg containerWidth fontSize) ([], [])
    if st.2 ≠ [] then st.1 ++ [st.2] else st.1

theorem wrapStep_fold_shift (cfg : ProcessingConfig) (cw fs : ℚ) :
    ∀ (words : List (List Char)) (L : List (List Char)) (cur : List Char),
      words.foldl (wrapStep cfg cw fs) (L, cur)
        = (L ++ (words.foldl (wrapStep cfg cw fs) ([], cur)).1,
           (words.foldl (wrapStep cfg cw fs) ([], cur)).2) := by
  intro words
  induction words with
  | nil => intro L cur; simp
  | cons w ws ih =>
    intro L cur
    by_cases hC : estimateTextWidth cfg (cur ++ w) fs ≤ cw ∨ cur = []
    · simp only [List.foldl_cons, wrapStep, hC, if_true]
      exact ih L (cur ++ w)
    · simp only [List.foldl_cons, wrapStep, hC, if_false, List.nil_append]
      rw [ih (L ++ [cur]) w, ih [cur] w]
      simp [List.append_assoc]

theorem simulateWordWrap_foldl (cfg : ProcessingConfig) (cw fs : ℚ) :
    ∀ (ps : List (List Char)) (L : List (List Char)),
      ps.foldl
        (fun lines paragraph =>
          if jsTrim paragraph = [] then lines ++ [[]]
          else
            let st := (tokenize paragraph).foldl (wrapStep cfg cw fs) (lines, [])
            if st.2 ≠ [] then st.1 ++ [st.2] else st.1) L
        = L ++ ps.flatMap (wrapParagraph cfg cw fs) := by
  intro ps
  induction ps with
  | nil => intro L; simp
  | cons p ps ih =>
    intro L
    have hstep :
        (if jsTrim p = [] then L ++ [[]]
         else
           let st := (tokenize p).foldl (wrapStep cfg cw fs) (L, [])
           if st.2 ≠ [] then st.1 ++ [st.2] else st.1)
          = L ++ wrapParagraph cfg cw fs p := by
      by_cases hp : jsTrim p = []
      · simp [wrapParagraph, hp]
      · simp only [wrapParagraph, hp, if_false]
        rw [wrapStep_fold_shift cfg cw fs (tokenize p) L []]
        by_cases h2 : ((tokenize p).foldl (wrapStep cfg cw fs) ([], [])).2 = []
        · simp [h2]
        · simp [h2, List.append_assoc]
    rw [List.foldl_cons, hstep, ih (L ++ wrapParagraph cfg cw fs p), List.append_assoc]
    simp

theorem dropWhile_of_all_false {p : Char → Bool} :
    ∀ l : List Char, (∀ c ∈ l, p c = false) → l.dropWhile p = l := by
  intro l h
  cases l with
  | nil => rfl
  | cons c cs =>
    rw [List.dropWhile_cons_of_neg]
    simp [h c (by simp)]

theorem jsTrim_of_no_space (w : List Char) (h : ∀ c ∈ w, isJsSpace c = false) :
    jsTrim w = w := by
  unfold jsTrim ltrim rtrim
  rw [dropWhile_of_all_false w h]
  rw [dropWhile_of_all_false w.reverse (fun c hc => h c (List.mem_reverse.mp hc))]
  exact List.reverse_reverse w

theorem tokenizeAux_all_word :
    ∀ (w cur : List Char) (out : List (List Char)),
      (∀ c ∈ w, isJsSpace c = false) →
      tokenizeAux w cur false out = ((cur.reverse ++ w) :: out).reverse := by
  intro w
  induction w with
  | nil => intro cur out _; simp [tokenizeAux]
  | cons c cs ih =>
    intro cur out h
    have hc : isJsSpace c = false := h c (by simp)
    simp only [tokenizeAux, hc]
    rw [if_pos (show ((false == false) = true) from rfl)]
    rw [ih (c :: cur) out (fun d hd => h d (by simp [hd]))]
    simp

theorem tokenize_single_word (w : List Char) (h : ∀ c ∈ w, isJsSpace c = false) :
    tokenize w = [w] := by
  unfold tokenize
  rw [tokenizeAux_all_word w [] [] h]
  simp

/-- C7: the simulation processes paragraphs independently; a
whitespace-only paragraph yields exactly one empty visual line; a token
is appended exactly when the test line fits or the current line is
empty, otherwise the line is flushed and the token starts a new one; and
a paragraph that is a single word wider than the container yields
exactly one line holding that word. -/
theorem C7_simulateWordWrap (cfg : ProcessingConfig) (cw fs : ℚ) :
    (∀ text, simulateWordWrap cfg text cw fs
        = (splitOnPred (isBreakChar cfg) text).flatMap (wrapParagraph cfg cw fs))
    ∧ (∀ p, jsTrim p = [] → wrapParagraph cfg cw fs p = [[]])
    ∧ (∀ st w, wrapStep cfg cw fs st w
        = if estimateTextWidth cfg (st.2 ++ w) fs ≤ cw ∨ st.2 = []
          then (st.1, st.2 ++ w) else (st.1 ++ [st.2], w))
    ∧ (∀ w, w ≠ [] → (∀ c ∈ w, isJsSpace c = false) →
        cw < estimateTextWidth cfg w fs → wrapParagraph cfg cw fs w = [w]) := by
  refine ⟨?_, ?_, ?_, ?_⟩
  · intro text
    rw [simulateWordWrap, simulateWordWrap_foldl cfg cw fs _ []]
    rfl
  · intro p hp
    simp [wrapParagraph, hp]
  · intro st w
    rfl
  · intro w hne hns _
    have htrim : jsTrim w = w := jsTrim_of_no_space w hns
    simp only [wrapParagraph, htrim, hne, if_false]
    rw [tokenize_single_word w hns]
    simp [wrapStep, hne]

/-- Witness for C7: a single 5-letter word in a 10-pixel container comes
back as one over-wide line; a whitespace-only paragraph gives one empty
line; an appending step of the greedy loop. -/
theorem C7_simulateWordWrap_witness :
    wrapParagraph DEFAULT_CONFIG 10 16 ['h', 'e', 'l', 'l', 'o'] = [['h', 'e', 'l', 'l', 'o']]
    ∧ wrapParagraph DEFAULT_CONFIG 10 16 [' ', ' '] = [[]]
    ∧ simulateWordWrap DEFAULT_CONFIG ['a', '\n', 'b'] 400 16
        = (splitOnPred (isBreakChar DEFAULT_CONFIG) ['a', '\n', 'b']).flatMap
            (wrapParagraph DEFAULT_CONFIG 400 16) :=
  ⟨(C7_simulateWordWrap DEFAULT_CONFIG 10 16).2.2.2 ['h', 'e', 'l', 'l', 'o']
      (by decide) (by decide)
      (by
        rw [estimateTextWidth_eq, baseMultiplier_default]
        have htt : textTenths ['h', 'e', 'l', 'l', 'o'] = 25 := by decide
        rw [htt]
        norm_num),
   (C7_simulateWordWrap DEFAULT_CONFIG 10 16).2.1 [' ', ' '] (by decide),
   (C7_simulateWordWrap DEFAULT_CONFIG 400 16).1 ['a', '\n', 'b']⟩

/-! ### Claim C8 -/

/-- `typeof node.fontSize === 'number' ? node.fontSize : 16`. -/
def getNodeFontSize (node : TextNodeModel) : ℚ :=
  match node.fontSize with
  | some v => v
  | none => 16

/-- Stable insertion step for the descending-confidence sort
(`issues.sort((a, b) => b.confidence - a.confidence)`): an issue is
placed before the first strictly-lower or equal-confidence-later
element, keeping the original order of equal keys. -/
def insertByConfidence (x : DetectedIssue) : List DetectedIssue → List DetectedIssue
  | [] => [x]
  | y :: ys =>
    if y.confidence ≤ x.confidence then x :: y :: ys
    else y :: insertByConfidence x ys

/-- Stable sort of the issues by descending confidence. -/
def sortByConfidence (issues : List DetectedIssue) : List DetectedIssue :=
  issues.foldr insertByConfidence []

/-- One iteration of the issue loop of `generateChanges`: the pair holds
the processed text so far and the `newAutoResize` cell. -/
def applyIssue (cfg : ProcessingConfig) (node : TextNodeModel)
    (st : List Char × Option TextAutoResize) (issue : DetectedIssue) :
    List Char × Option TextAutoResize :=
  match issue.type with
  | DetectionType.autoWidth =>
    (removeLineBreaksJapanesePriority cfg st.1 node.width (getNodeFontSize node) false,
     some TextAutoResize.HEIGHT)
  | DetectionType.edgeBreaking =>
    (removeLineBreaksJapanesePriority cfg st.1 node.width (getNodeFontSize node) false, st.2)
  | DetectionType.softBreak =>
    (convertSoftBreaksToHard cfg.softBreakChars st.1, st.2)

/-- The `ProcessingChanges` record: only the fields that were assigned
are present. -/
structure ProcessingChanges where
  newText : Option (List Char)
  newAutoResize : Option TextAutoResize
deriving DecidableEq

/-- `generateChanges(originalText, issues, node)` from `code.ts`: a
WIDTH_AND_HEIGHT node is unconditionally converted to HEIGHT and its
breaks rejoined; otherwise the issues are processed in descending
confidence order; `newText` is set only when the processed text differs
from the original. -/
def generateChanges (cfg : ProcessingConfig) (originalText : List Char)
    (issues : List DetectedIssue) (node : TextNodeModel) : ProcessingChanges :=
  if node.textAutoResize = TextAutoResize.WIDTH_AND_HEIGHT then
    let processed :=
      removeLineBreaksJapanesePriority cfg originalText node.width (getNodeFontSize node) false
    { newAutoResize := some TextAutoResize.HEIGHT
      newText := if processed = originalText then none else some processed }
  else
    let st := (sortByConfidence issues).foldl (applyIssue cfg node) (originalText, none)
    { newAutoResize := st.2
      newText := if st.1 = originalText then none else some st.1 }

/-- The node of the C8 counterexample: already in HEIGHT mode. -/
def heightNode : TextNodeModel :=
  { textAutoResize := TextAutoResize.HEIGHT, characters := [],
    width := 400, fontSize := some 16 }

/-- C8 counterexample: for a block already in HEIGHT mode carrying an
auto-width issue (as `code.ts`'s detector can produce), `generateChanges`
sets `newAutoResize = HEIGHT`, equal to the block's current resize mode -
the field is populated even though it does not differ. -/
theorem C8_counterexample :
    heightNode.textAutoResize = TextAutoResize.HEIGHT
    ∧ (generateChanges DEFAULT_CONFIG (jpsent1 ++ '\n' :: jpsent2)
        [{ type := DetectionType.autoWidth, confidence := 9/10 }] heightNode).newAutoResize
      = some TextAutoResize.HEIGHT :=
  ⟨rfl, rfl⟩

theorem applyIssue_fold_resize (cfg : ProcessingConfig) (node : TextNodeModel) :
    ∀ (issues : List DetectedIssue) (st : List Char × Option TextAutoResize),
      (st.2 = none ∨ st.2 = some TextAutoResize.HEIGHT) →
      ((issues.foldl (applyIssue cfg node) st).2 = none
        ∨ (issues.foldl (applyIssue cfg node) st).2 = some TextAutoResize.HEIGHT) := by
  intro issues
  induction issues with
  | nil => intro st h; exact h
  | cons issue rest ih =>
    intro st h
    rw [List.foldl_cons]
    apply ih
    unfold applyIssue
    match issue.type with
    | DetectionType.autoWidth => exact Or.inr rfl
    | DetectionType.edgeBreaking => exact h
    | DetectionType.softBreak => exact h

/-- C8 (amended): `newText` is populated only when the processed text
differs from the original; `newAutoResize`, when populated, always holds
HEIGHT - it is always populated (and differs) for a WIDTH_AND_HEIGHT
block, but it may equal the block's current mode when an auto-width
issue is processed for a block already in HEIGHT mode. -/
theorem C8_generateChanges_amended (cfg : ProcessingConfig)
    (originalText : List Char) (issues : List DetectedIssue) (node : TextNodeModel) :
    (∀ t, (generateChanges cfg originalText issues node).newText = some t →
        t ≠ originalText)
    ∧ (∀ r, (generateChanges cfg originalText issues node).newAutoResize = some r →
        r = TextAutoResize.HEIGHT)
    ∧ (node.textAutoResize = TextAutoResize.WIDTH_AND_HEIGHT →
        (generateChanges cfg originalText issues node).newAutoResize
            = some TextAutoResize.HEIGHT
          ∧ node.textAutoResize ≠ TextAutoResize.HEIGHT) := by
  refine ⟨?_, ?_, ?_⟩
  · intro t ht
    unfold generateChanges at ht
    split at ht
    · by_cases hp : removeLineBreaksJapanesePriority cfg originalText node.width
          (getNodeFontSize node) false = originalText
      · simp [hp] at ht
      · simp only [hp, if_false] at ht
        rw [← Option.some.injEq t _ |>.mp ht.symm] at hp
        exact fun he => hp (he ▸ rfl)
    · by_cases hp : ((sortByConfidence issues).foldl (applyIssue cfg node)
          (originalText, none)).1 = originalText
      · simp [hp] at ht
      · simp only [hp, if_false] at ht
        rw [← Option.some.injEq t _ |>.mp ht.symm] at hp
        exact fun he => hp (he ▸ rfl)
  · intro r hr
    unfold generateChanges at hr
    split at hr
    · simp only [Option.some.injEq] at hr
      exact hr.symm
    · have h := applyIssue_fold_resize cfg node (sortByConfidence issues)
        (originalText, none) (Or.inl rfl)
      dsimp only at hr
      rcases h with h | h
      · rw [h] at hr; cases hr
      · rw [h] at hr
        simp only [Option.some.injEq] at hr
        exact hr.symm
  · intro hm
    constructor
    · unfold generateChanges
      rw [if_pos hm]
    · rw [hm]
      intro hx
      cases hx

/-- Witness for C8 (amended) at a WIDTH_AND_HEIGHT block. -/
theorem C8_generateChanges_amended_witness :
    (generateChanges DEFAULT_CONFIG (jpsent1 ++ '\n' :: jpsent2) []
        { textAutoResize := TextAutoResize.WIDTH_AND_HEIGHT, characters := [],
          width := 400, fontSize := some 16 }).newAutoResize
      = some TextAutoResize.HEIGHT :=
  ((C8_generateChanges_amended DEFAULT_CONFIG (jpsent1 ++ '\n' :: jpsent2) []
    { textAutoResize := TextAutoResize.WIDTH_AND_HEIGHT, characters := [],
      width := 400, fontSize := some 16 }).2.2 rfl).1

/-! ### Claim C9 -/

/-- The `TextNode` data touched by the batch analysis loop. -/
structure BatchNode where
  id : Nat
  characters : List Char
deriving DecidableEq, Inhabited

/-- A `TextAnalysisResult` (the node is kept by id). -/
structure BatchAnalysisResult where
  nodeId : Nat
  issues : List DetectedIssue
  estimatedChanges : String
  originalText : List Char
deriving Inhabited

/-- The error result built in the per-item `catch` of
`BatchProcessor.analyzeNodes`: empty issues, an error message, and the
node's characters as original text. -/
def analysisErrorResult (node : BatchNode) (e : String) : BatchAnalysisResult :=
  { nodeId := node.id
    issues := []
    estimatedChanges := "Analysis error: " ++ e
    originalText := node.characters }

/-- One item of the analysis loop: the `try` block pushes the analyzer's
result, the `catch` block pushes the error result. -/
def analyzeItem (analyze : BatchNode → Except String BatchAnalysisResult)
    (node : BatchNode) : BatchAnalysisResult :=
  match analyze node with
  | Except.ok r => r
  | Except.error e => analysisErrorResult node e

/-- The chunking of the outer loop (`CHUNK_SIZE = 50`,
`nodes.slice(i, i + 50)`). -/
def chunksOf (l : List BatchNode) : List (List BatchNode) :=
  if h : l = [] then []
  else l.take 50 :: chunksOf (l.drop 50)
termination_by l.length
decreasing_by
  simp only [List.length_drop]
  exact Nat.sub_lt (List.length_pos.mpr h) (by norm_num)

/-- `BatchProcessor.analyzeNodes` without cancellation (the flag is set
to `false` on entry and no `cancel()` arrives): the chunked double loop
appends one result per node, converting per-item failures into error
results. -/
def analyzeNodes (analyze : BatchNode → Except String BatchAnalysisResult)
    (nodes : List BatchNode) : List BatchAnalysisResult :=
  (chunksOf nodes).foldl
    (fun results chunk => results ++ chunk.map (analyzeItem analyze)) []

theorem chunksOf_join : ∀ (n : Nat) (l : List BatchNode), l.length ≤ n →
    (chunksOf l).flatten = l := by
  intro n
  induction n with
  | zero =>
    intro l hl
    have : l = [] := List.eq_nil_of_length_eq_zero (Nat.le_zero.mp hl)
    subst this
    rw [chunksOf]
    simp
  | succ n ih =>
    intro l hl
    rw [chunksOf]
    split
    case isTrue h => simp [h]
    case isFalse h =>
      have hdrop : (l.drop 50).length ≤ n := by
        rw [List.length_drop]
        omega
      rw [List.flatten_cons, ih (l.drop 50) hdrop]
      exact List.take_append_drop 50 l

theorem analyzeNodes_foldl (analyze : BatchNode → Except String BatchAnalysisResult) :
    ∀ (cs : List (List BatchNode)) (acc : List BatchAnalysisResult),
      cs.foldl (fun results chunk => results ++ chunk.map (analyzeItem analyze)) acc
        = acc ++ (cs.flatten).map (analyzeItem analyze) := by
  intro cs
  induction cs with
  | nil => intro acc; simp
  | cons c cs ih =>
    intro acc
    rw [List.foldl_cons, ih, List.flatten_cons, List.map_append, List.append_assoc]

theorem analyzeNodes_eq_map (analyze : BatchNode → Except String BatchAnalysisResult)
    (nodes : List BatchNode) :
    analyzeNodes analyze nodes = nodes.map (analyzeItem analyze) := by
  unfold analyzeNodes
  rw [analyzeNodes_foldl, chunksOf_join nodes.length nodes (le_refl _)]
  simp

/-- C9: batch analysis without cancellation returns exactly one result
per input node, in input order; the result for node `i` is the
analyzer's output for that node, and when the analyzer throws on an
item, the batch records the error result for that item and continues -
no exception escapes the loop. -/
theorem C9_analyzeNodes_per_item
    (analyze : BatchNode → Except String BatchAnalysisResult)
    (nodes : List BatchNode) :
    (analyzeNodes analyze nodes).length = nodes.length
    ∧ (∀ i, i < nodes.length →
        (analyzeNodes analyze nodes).getD i default
          = analyzeItem analyze (nodes.getD i default))
    ∧ (∀ i, i < nodes.length → ∀ e,
        analyze (nodes.getD i default) = Except.error e →
        (analyzeNodes analyze nodes).getD i default
          = analysisErrorResult (nodes.getD i default) e) := by
  have hmap := analyzeNodes_eq_map analyze nodes
  have hlen : (analyzeNodes analyze nodes).length = nodes.length := by
    rw [hmap, List.length_map]
  have hidx : ∀ i, i < nodes.length →
      (analyzeNodes analyze nodes).getD i default
        = analyzeItem analyze (nodes.getD i default) := by
    intro i hi
    rw [hmap]
    rw [List.getD_eq_getElem _ _ (by simpa using hi),
      List.getD_eq_getElem _ _ hi]
    simp
  refine ⟨hlen, hidx, ?_⟩
  intro i hi e he
  rw [hidx i hi]
  unfold analyzeItem
  rw [he]

/-- The analyzer of the C9 witness: fails on node id 1, succeeds
otherwise. -/
def c9Analyze (node : BatchNode) : Except String BatchAnalysisResult :=
  if node.id = 1 then Except.error ("boom")
  else Except.ok
    { nodeId := node.id, issues := [], estimatedChanges := ""
      originalText := node.characters }

/-- The two-node batch of the C9 witness. -/
def c9Nodes : List BatchNode :=
  [{ id := 0, characters := ['a'] }, { id := 1, characters := ['b'] }]

/-- Witness for C9: in a two-node batch whose second item throws, the
batch still yields two results and the second is the error result. -/
theorem C9_analyzeNodes_per_item_witness :
    (analyzeNodes c9Analyze c9Nodes).length = c9Nodes.length
    ∧ (analyzeNodes c9Analyze c9Nodes).getD 1 default
        = analysisErrorResult (c9Nodes.getD 1 default) ("boom") :=
  ⟨(C9_analyzeNodes_per_item c9Analyze c9Nodes).1,
   (C9_analyzeNodes_per_item c9Analyze c9Nodes).2.2 1 (by decide) ("boom") rfl⟩
